import Mathlib

/-!
Shallow embedding of vitorfhc/rsswatcher (rss_watcher.py and rss_cli.py).

Feed entries are records with optional `id`, `link`, `title` fields; the
seen-entry cache is a key-value map from feed URL to a set of entry ids
(modelled as a list of strings with membership semantics); the feed registry
is a key-value map from feed name to feed URL (modelled as an association
list).  Each Python function is translated to a pure Lean function over these
models; the feedparser result is passed in as data (`ParsedFeed`), and the
HTTP POST of the notifier is modelled by returning the posted `content`
string (`none` means no network call was made).
-/

/-- Model of a fetched feed entry: `entry.get("id")`, `entry.get("link")`,
`entry.get("title")` each may be absent. -/
structure Entry where
  id : Option String
  link : Option String
  title : Option String
deriving Repr, DecidableEq

/-- Embedding of `get_entry_id`: prefer the `id` field; if missing, use the
`link`; `none` when both are absent. -/
def get_entry_id (e : Entry) : Option String :=
  match e.id with
  | some i => some i
  | none => e.link

/-- Ephemeral record appended to `new_entries` inside `process_feed`:
`{"feed": feed_name, "title": title, "link": link}`. -/
structure NewEntryRecord where
  feed : String
  title : String
  link : String
deriving Repr, DecidableEq

/-- Projection of an entry performed by `process_feed` when it classifies the
entry as new: `entry.get("title", "No title")`, `entry.get("link", "No link")`. -/
def projectEntry (feed_name : String) (e : Entry) : NewEntryRecord :=
  { feed := feed_name
    title := e.title.getD "No title"
    link := e.link.getD "No link" }

/-- Embedding of the entry loop of `process_feed`: walks the fetched entries
in order, skips entries without an identifier, emits entries whose identifier
is not in the evolving seen-set and adds their identifier to it.  Returns the
list of new-entry records (in input order) and the final seen-set. -/
def processEntries (feed_name : String) : List Entry → List String → List NewEntryRecord × List String
  | [], seen => ([], seen)
  | e :: rest, seen =>
    match get_entry_id e with
    | none => processEntries feed_name rest seen
    | some eid =>
      if eid ∈ seen then
        processEntries feed_name rest seen
      else
        let r := processEntries feed_name rest (eid :: seen)
        (projectEntry feed_name e :: r.1, r.2)

/-- Instrumented copy of the entry loop that also records, next to each
emitted record, the entry identifier it arose from.  Identical control flow
to `processEntries`. -/
def processEntriesI (feed_name : String) : List Entry → List String → List (NewEntryRecord × String) × List String
  | [], seen => ([], seen)
  | e :: rest, seen =>
    match get_entry_id e with
    | none => processEntriesI feed_name rest seen
    | some eid =>
      if eid ∈ seen then
        processEntriesI feed_name rest seen
      else
        let r := processEntriesI feed_name rest (eid :: seen)
        ((projectEntry feed_name e, eid) :: r.1, r.2)

/-- Model of the shelve cache: association list from feed URL to seen-set. -/
abbrev Cache := List (String × List String)

/-- Embedding of `cache.get(feed_url, set())`: value of the first matching
key, or the empty set when the key is absent. -/
def Cache.get : Cache → String → List String
  | [], _ => []
  | p :: rest, k => if p.1 == k then p.2 else Cache.get rest k

/-- Embedding of `cache[feed_url] = seen_entries`: replace the value at the
first matching key, or append a fresh record when the key is absent. -/
def Cache.set : Cache → String → List String → Cache
  | [], k, v => [(k, v)]
  | p :: rest, k, v => if p.1 == k then (k, v) :: rest else p :: Cache.set rest k v

/-- Outcome of `feedparser.parse(feed_url)` as consumed by `process_feed`:
the `bozo` flag and the list of entries. -/
structure ParsedFeed where
  bozo : Bool
  entries : List Entry
deriving Repr

/-- Embedding of `process_feed`: on a bozo parse return `[]` and leave the
cache untouched; otherwise run the entry loop against the cached seen-set
for `feed_url` and write the updated seen-set back. -/
def process_feed (feed_name feed_url : String) (feed : ParsedFeed) (cache : Cache) :
    List NewEntryRecord × Cache :=
  if feed.bozo then
    ([], cache)
  else
    let seen := Cache.get cache feed_url
    let r := processEntries feed_name feed.entries seen
    (r.1, Cache.set cache feed_url r.2)

/-- Message line built for one entry inside `send_discord_notification`:
`f"**{entry['feed']}**: [{entry['title']}]({entry['link']})"`. -/
def entry_line (e : NewEntryRecord) : String :=
  "**" ++ e.feed ++ "**: [" ++ e.title ++ "](" ++ e.link ++ ")"

/-- Full message of `send_discord_notification` before truncation: the header
line followed by one line per entry, newline-joined. -/
def build_message (es : List NewEntryRecord) : String :=
  String.intercalate "\n" ("**New RSS Feed Entries Found:**" :: es.map entry_line)

/-- Embedding of `send_discord_notification`: `none` when the entry list is
empty (no network call); otherwise the `content` field of the single POSTed
payload, which is the built message sliced to its first 2000 characters
(`message[0:2000]`). -/
def send_discord_notification (es : List NewEntryRecord) : Option String :=
  if es.isEmpty then
    none
  else
    some (String.mk ((build_message es).data.take 2000))

/-- Model of the feeds shelve database: association list from feed name to
feed URL, in the store's own iteration order. -/
abbrev Registry := List (String × String)

/-- Embedding of `name in db`. -/
def Registry.hasName (db : Registry) (k : String) : Bool :=
  db.any (fun p => p.1 == k)

/-- Embedding of `db[name]` as a lookup: value of the first matching key. -/
def Registry.getVal : Registry → String → Option String
  | [], _ => none
  | p :: rest, k => if p.1 == k then some p.2 else Registry.getVal rest k

/-- Embedding of `db[name] = url`: replace the value at the first matching
key, or append a fresh record when the key is absent. -/
def Registry.set : Registry → String → String → Registry
  | [], k, v => [(k, v)]
  | p :: rest, k, v => if p.1 == k then (k, v) :: rest else p :: Registry.set rest k v

/-- Embedding of `del db[name]`: remove every record with the given key. -/
def Registry.erase : Registry → String → Registry
  | [], _ => []
  | p :: rest, k => if p.1 == k then Registry.erase rest k else p :: Registry.erase rest k

/-- Domain errors of the CLI; each is reported with `sys.exit(1)`. -/
inductive CliError where
  | duplicateName
  | notFound
deriving Repr, DecidableEq

/-- Embedding of `add_feed`: error when the name is already present,
otherwise insert the mapping. -/
def add_feed (db : Registry) (name url : String) : Except CliError Registry :=
  if Registry.hasName db name then
    .error .duplicateName
  else
    .ok (Registry.set db name url)

/-- State-and-exit-code view of one `add` invocation: on a domain error the
process exits with code 1 and the store is left as it was. -/
def run_add (db : Registry) (name url : String) : Registry × Nat :=
  match add_feed db name url with
  | .ok db2 => (db2, 0)
  | .error _ => (db, 1)

/-- Python truthiness of an optional string option: `None` and `""` are
falsy, so `x if x else y` keeps `x` only when it is a non-empty string. -/
def strVal : Option String → Option String
  | none => none
  | some s => if s = "" then none else some s

/-- Embedding of `edit_feed`: error when the name is absent; error when a
truthy new name differs from the name and is already taken; otherwise delete
the old key exactly when renaming, then write the final name to the final
URL. -/
def edit_feed (db : Registry) (name : String) (new_name url : Option String) :
    Except CliError Registry :=
  if ¬ Registry.hasName db name then
    .error .notFound
  else
    let current_url := (Registry.getVal db name).getD ""
    let final_name := (strVal new_name).getD name
    let final_url := (strVal url).getD current_url
    match strVal new_name with
    | some n =>
      if n ≠ name ∧ Registry.hasName db n then
        .error .duplicateName
      else
        let db1 := if n ≠ name then Registry.erase db name else db
        .ok (Registry.set db1 final_name final_url)
    | none => .ok (Registry.set db final_name final_url)

/-- Order in which the watcher's `main` visits feeds: it iterates
`for feed_name in feed_config` directly, i.e. in the store's own iteration
order, without sorting. -/
def watcher_feed_order (feed_config : Registry) : List String :=
  feed_config.map Prod.fst

/-- Names printed by the CLI `list` command: `sorted(db.keys())`. -/
def list_feeds_names (db : Registry) : List String :=
  List.insertionSort (fun a b => a ≤ b) (db.map Prod.fst)

/-- Specification-side change detection, written from the spec's words: an
entry is emitted iff it has an identifier that is neither in the prior
seen-set nor equal to the identifier of any earlier entry of the batch;
emitted entries are projected in input order. -/
def detect_new_spec (feed_name : String) (prior : List String) :
    List Entry → List String → List NewEntryRecord
  | [], _ => []
  | e :: rest, earlier =>
    match get_entry_id e with
    | none => detect_new_spec feed_name prior rest earlier
    | some eid =>
      if eid ∉ prior ∧ eid ∉ earlier then
        projectEntry feed_name e :: detect_new_spec feed_name prior rest (eid :: earlier)
      else
        detect_new_spec feed_name prior rest (eid :: earlier)

/-- Specification-side list of the entry identifiers classified as new,
mirroring `detect_new_spec`. -/
def new_eids_spec (prior : List String) : List Entry → List String → List String
  | [], _ => []
  | e :: rest, earlier =>
    match get_entry_id e with
    | none => new_eids_spec prior rest earlier
    | some eid =>
      if eid ∉ prior ∧ eid ∉ earlier then
        eid :: new_eids_spec prior rest (eid :: earlier)
      else
        new_eids_spec prior rest (eid :: earlier)

theorem Cache.get_set_self (c : Cache) (k : String) (v : List String) :
    Cache.get (Cache.set c k v) k = v := by
  induction c with
  | nil => simp [Cache.set, Cache.get]
  | cons p rest ih =>
    by_cases h : p.1 = k
    · simp [Cache.set, Cache.get, h]
    · simp [Cache.set, Cache.get, h, ih]

theorem Cache.set_set_same (c : Cache) (k : String) (v : List String) :
    Cache.set (Cache.set c k v) k v = Cache.set c k v := by
  induction c with
  | nil => simp [Cache.set]
  | cons p rest ih =>
    by_cases h : p.1 = k
    · simp [Cache.set, h]
    · simp [Cache.set, h, ih]

theorem processEntries_spec (n : String) (es : List Entry) :
    ∀ (seen prior earlier : List String),
      (∀ x, x ∈ seen ↔ x ∈ prior ∨ x ∈ earlier) →
      (processEntries n es seen).1 = detect_new_spec n prior es earlier ∧
      (∀ x, x ∈ (processEntries n es seen).2 ↔
        x ∈ seen ∨ x ∈ new_eids_spec prior es earlier) := by
  induction es with
  | nil =>
    intro seen prior earlier hinv
    simp [processEntries, detect_new_spec, new_eids_spec]
  | cons e rest ih =>
    intro seen prior earlier hinv
    cases hg : get_entry_id e with
    | none =>
      simp only [processEntries, detect_new_spec, new_eids_spec, hg]
      exact ih seen prior earlier hinv
    | some eid =>
      by_cases hmem : eid ∈ seen
      · have hcond : ¬ (eid ∉ prior ∧ eid ∉ earlier) := by
          have := (hinv eid).mp hmem
          tauto
        have hinv2 : ∀ x, x ∈ seen ↔ x ∈ prior ∨ x ∈ eid :: earlier := by
          intro x
          by_cases hx : x = eid
          · subst hx
            simp only [List.mem_cons]
            tauto
          · rw [hinv x]
            simp only [List.mem_cons]
            tauto
        obtain ⟨h1, h2⟩ := ih seen prior (eid :: earlier) hinv2
        simp only [processEntries, detect_new_spec, new_eids_spec, hg, if_pos hmem,
          if_neg hcond]
        exact ⟨h1, h2⟩
      · have hcond : eid ∉ prior ∧ eid ∉ earlier := by
          constructor <;> intro hx <;> exact hmem ((hinv eid).mpr (by tauto))
        have hinv2 : ∀ x, x ∈ (eid :: seen) ↔ x ∈ prior ∨ x ∈ eid :: earlier := by
          intro x
          simp only [List.mem_cons, hinv x]
          tauto
        obtain ⟨h1, h2⟩ := ih (eid :: seen) prior (eid :: earlier) hinv2
        simp only [processEntries, detect_new_spec, new_eids_spec, hg, if_neg hmem,
          if_pos hcond]
        constructor
        · simpa using h1
        · intro x
          rw [h2 x]
          simp only [List.mem_cons]
          tauto

theorem mem_processEntries_seen (n : String) (es : List Entry) :
    ∀ seen x, x ∈ seen → x ∈ (processEntries n es seen).2 := by
  induction es with
  | nil =>
    intro seen x hx
    simpa [processEntries] using hx
  | cons e rest ih =>
    intro seen x hx
    cases hg : get_entry_id e with
    | none =>
      simp only [processEntries, hg]
      exact ih seen x hx
    | some eid =>
      by_cases hmem : eid ∈ seen
      · simp only [processEntries, hg, if_pos hmem]
        exact ih seen x hx
      · simp only [processEntries, hg, if_neg hmem]
        exact ih (eid :: seen) x (List.mem_cons_of_mem _ hx)

theorem eid_mem_processEntries (n : String) (es : List Entry) :
    ∀ seen e eid, e ∈ es → get_entry_id e = some eid →
      eid ∈ (processEntries n es seen).2 := by
  induction es with
  | nil =>
    intro seen e eid he
    simp at he
  | cons e0 rest ih =>
    intro seen e eid he hg
    rcases List.mem_cons.mp he with h0 | h0
    · subst h0
      simp only [processEntries, hg]
      by_cases hmem : eid ∈ seen
      · simp only [if_pos hmem]
        exact mem_processEntries_seen n rest seen eid hmem
      · simp only [if_neg hmem]
        exact mem_processEntries_seen n rest (eid :: seen) eid (List.mem_cons_self _ _)
    · cases hg0 : get_entry_id e0 with
      | none =>
        simp only [processEntries, hg0]
        exact ih seen e eid h0 hg
      | some eid0 =>
        by_cases hmem : eid0 ∈ seen
        · simp only [processEntries, hg0, if_pos hmem]
          exact ih seen e eid h0 hg
        · simp only [processEntries, hg0, if_neg hmem]
          exact ih (eid0 :: seen) e eid h0 hg

theorem processEntries_no_new (n : String) (es : List Entry) :
    ∀ seen, (∀ e ∈ es, ∀ eid, get_entry_id e = some eid → eid ∈ seen) →
      processEntries n es seen = ([], seen) := by
  induction es with
  | nil =>
    intro seen _
    simp [processEntries]
  | cons e rest ih =>
    intro seen hall
    cases hg : get_entry_id e with
    | none =>
      simp only [processEntries, hg]
      exact ih seen (fun e2 h2 => hall e2 (List.mem_cons_of_mem _ h2))
    | some eid =>
      have hmem : eid ∈ seen := hall e (List.mem_cons_self _ _) eid hg
      simp only [processEntries, hg, if_pos hmem]
      exact ih seen (fun e2 h2 => hall e2 (List.mem_cons_of_mem _ h2))

theorem processEntriesI_fst (n : String) (es : List Entry) :
    ∀ seen, (processEntriesI n es seen).1.map Prod.fst = (processEntries n es seen).1 := by
  induction es with
  | nil =>
    intro seen
    simp [processEntriesI, processEntries]
  | cons e rest ih =>
    intro seen
    cases hg : get_entry_id e with
    | none =>
      simp only [processEntriesI, processEntries, hg]
      exact ih seen
    | some eid =>
      by_cases hmem : eid ∈ seen
      · simp only [processEntriesI, processEntries, hg, if_pos hmem]
        exact ih seen
      · simp only [processEntriesI, processEntries, hg, if_neg hmem, List.map_cons]
        rw [ih (eid :: seen)]

theorem processEntriesI_fresh (n : String) (es : List Entry) :
    ∀ seen x, x ∈ (processEntriesI n es seen).1.map Prod.snd → x ∉ seen := by
  induction es with
  | nil =>
    intro seen x hx
    simp [processEntriesI] at hx
  | cons e rest ih =>
    intro seen x hx
    cases hg : get_entry_id e with
    | none =>
      simp only [processEntriesI, hg] at hx
      exact ih seen x hx
    | some eid =>
      by_cases hmem : eid ∈ seen
      · simp only [processEntriesI, hg, if_pos hmem] at hx
        exact ih seen x hx
      · simp only [processEntriesI, hg, if_neg hmem, List.map_cons, List.mem_cons] at hx
        rcases hx with hx | hx
        · subst hx
          exact hmem
        · intro hxs
          exact ih (eid :: seen) x hx (List.mem_cons_of_mem _ hxs)

theorem processEntriesI_nodup (n : String) (es : List Entry) :
    ∀ seen, ((processEntriesI n es seen).1.map Prod.snd).Nodup := by
  induction es with
  | nil =>
    intro seen
    simp [processEntriesI]
  | cons e rest ih =>
    intro seen
    cases hg : get_entry_id e with
    | none =>
      simp only [processEntriesI, hg]
      exact ih seen
    | some eid =>
      by_cases hmem : eid ∈ seen
      · simp only [processEntriesI, hg, if_pos hmem]
        exact ih seen
      · simp only [processEntriesI, hg, if_neg hmem, List.map_cons, List.nodup_cons]
        refine ⟨fun hx => ?_, ih (eid :: seen)⟩
        exact processEntriesI_fresh n rest (eid :: seen) eid hx (List.mem_cons_self _ _)

theorem processEntries_skip (n : String) (e : Entry) (hg : get_entry_id e = none) :
    ∀ es1 es2 seen,
      processEntries n (es1 ++ e :: es2) seen = processEntries n (es1 ++ es2) seen := by
  intro es1
  induction es1 with
  | nil =>
    intro es2 seen
    simp only [List.nil_append, processEntries, hg]
  | cons e0 rest ih =>
    intro es2 seen
    cases hg0 : get_entry_id e0 with
    | none =>
      simp only [List.cons_append, processEntries, hg0]
      exact ih es2 seen
    | some eid0 =>
      by_cases hmem : eid0 ∈ seen
      · simp only [List.cons_append, processEntries, hg0, if_pos hmem]
        exact ih es2 seen
      · simp only [List.cons_append, processEntries, hg0, if_neg hmem, List.append_eq]
        rw [ih es2 (eid0 :: seen)]

theorem Registry.getVal_set_self (db : Registry) (k v : String) :
    Registry.getVal (Registry.set db k v) k = some v := by
  induction db with
  | nil => simp [Registry.set, Registry.getVal]
  | cons p rest ih =>
    by_cases h : p.1 = k
    · simp [Registry.set, Registry.getVal, h]
    · simp [Registry.set, Registry.getVal, h, ih]

theorem Registry.getVal_set_ne (db : Registry) (k v m : String) (hm : m ≠ k) :
    Registry.getVal (Registry.set db k v) m = Registry.getVal db m := by
  induction db with
  | nil => simp [Registry.set, Registry.getVal, Ne.symm hm]
  | cons p rest ih =>
    by_cases h : p.1 = k
    · simp [Registry.set, Registry.getVal, h, Ne.symm hm]
    · simp [Registry.set, Registry.getVal, h, ih]

theorem Registry.hasName_erase_self (db : Registry) (k : String) :
    Registry.hasName (Registry.erase db k) k = false := by
  induction db with
  | nil => simp [Registry.erase, Registry.hasName]
  | cons p rest ih =>
    by_cases h : p.1 = k
    · simpa [Registry.erase, h] using ih
    · simpa [Registry.erase, Registry.hasName, h] using ih

theorem Registry.hasName_cons (p : String × String) (l : Registry) (m : String) :
    Registry.hasName (p :: l) m = (p.1 == m || Registry.hasName l m) := rfl

theorem Registry.hasName_set_ne (db : Registry) (k v m : String) (hm : m ≠ k) :
    Registry.hasName (Registry.set db k v) m = Registry.hasName db m := by
  induction db with
  | nil => simp [Registry.set, Registry.hasName, Ne.symm hm]
  | cons p rest ih =>
    by_cases h : p.1 = k
    · simp [Registry.set, Registry.hasName_cons, h, Ne.symm hm]
    · simp [Registry.set, Registry.hasName_cons, h, ih]

theorem process_feed_not_bozo (n u : String) (es : List Entry) (cache : Cache) :
    process_feed n u ⟨false, es⟩ cache =
      ((processEntries n es (Cache.get cache u)).1,
       Cache.set cache u (processEntries n es (Cache.get cache u)).2) := by
  simp [process_feed]

theorem process_feed_snd (n u : String) (es : List Entry) (cache : Cache) :
    (process_feed n u ⟨false, es⟩ cache).2 =
      Cache.set cache u (processEntries n es (Cache.get cache u)).2 := by
  simp [process_feed]

/-- C1 (amended): the `new_entries` output of `process_feed` on a successful
parse is exactly the subsequence, in original input order, of the fetched
entries whose computed entry id (native id if present, else link) is not in
the cache's prior seen-set for the feed URL (an absent cache key counts as
the empty set) and does not repeat the entry id of any earlier entry of the
same batch, each projected to its feed name, title (default "No title") and
link (default "No link"). -/
theorem C1_prop (feed_name feed_url : String) (es : List Entry) (cache : Cache) :
    (process_feed feed_name feed_url ⟨false, es⟩ cache).1 =
      detect_new_spec feed_name (Cache.get cache feed_url) es [] := by
  rw [process_feed_not_bozo]
  exact (processEntries_spec feed_name es (Cache.get cache feed_url)
    (Cache.get cache feed_url) [] (by simp)).1

/-- C1 counterexample: with an empty cache and two fetched entries that share
the previously unseen entry id "1", the second entry satisfies the claim's
non-membership condition (its id is not in the seen-set before the call) yet
its projection does not appear in `new_entries`, refuting the claim as
stated. -/
theorem C1_counterexample :
    get_entry_id ⟨some "1", some "L2", some "B"⟩ = some "1" ∧
    "1" ∉ Cache.get ([] : Cache) "u" ∧
    projectEntry "F" ⟨some "1", some "L2", some "B"⟩ ∉
      (process_feed "F" "u"
        ⟨false, [⟨some "1", some "L1", some "A"⟩, ⟨some "1", some "L2", some "B"⟩]⟩
        ([] : Cache)).1 := by
  decide

/-- C3: change detection is idempotent: re-running `process_feed` on the
identical entry sequence, with the cache produced by the first run as the
prior state, yields an empty `new_entries` list and leaves the cache (hence
the feed URL's seen-set) unchanged. -/
theorem C3_prop (n u : String) (es : List Entry) (cache : Cache) :
    process_feed n u ⟨false, es⟩ (process_feed n u ⟨false, es⟩ cache).2 =
      ([], (process_feed n u ⟨false, es⟩ cache).2) := by
  have hno : processEntries n es ((processEntries n es (Cache.get cache u)).2) =
      ([], (processEntries n es (Cache.get cache u)).2) :=
    processEntries_no_new n es _
      (fun e he eid hg => eid_mem_processEntries n es (Cache.get cache u) e eid he hg)
  rw [process_feed_snd, process_feed_not_bozo, Cache.get_set_self, hno, Cache.set_set_same]

/-- C7: the seen-set written back by `process_feed` for the feed URL equals,
as a set, the old seen-set united with the entry ids of the entries
classified as new; in particular the old seen-set is contained in the
updated one, so a detection pass never removes an identifier. -/
theorem C7_prop (n u : String) (es : List Entry) (cache : Cache) (x : String) :
    (x ∈ Cache.get (process_feed n u ⟨false, es⟩ cache).2 u ↔
      x ∈ Cache.get cache u ∨ x ∈ new_eids_spec (Cache.get cache u) es []) ∧
    (x ∈ Cache.get cache u → x ∈ Cache.get (process_feed n u ⟨false, es⟩ cache).2 u) := by
  have hmem := (processEntries_spec n es (Cache.get cache u)
    (Cache.get cache u) [] (by simp)).2 x
  rw [process_feed_snd, Cache.get_set_self]
  exact ⟨hmem, fun hx => hmem.mpr (Or.inl hx)⟩

/-- C8: a fetched entry with neither a native id nor a link is skipped
entirely by `process_feed`: for any prior cache state, the result is the
same as if the entry were not in the batch at all, so it contributes no
output record and no seen-set identifier. -/
theorem C8_prop (n u : String) (e : Entry) (es1 es2 : List Entry) (cache : Cache)
    (hid : e.id = none) (hlink : e.link = none) :
    process_feed n u ⟨false, es1 ++ e :: es2⟩ cache =
      process_feed n u ⟨false, es1 ++ es2⟩ cache := by
  have hg : get_entry_id e = none := by
    simp [get_entry_id, hid, hlink]
  rw [process_feed_not_bozo, process_feed_not_bozo, processEntries_skip n e hg]

/-- C8 witness: processing a batch consisting of a single identifier-less
entry gives exactly the same result as processing the empty batch. -/
theorem C8_witness :
    (⟨none, none, some "T"⟩ : Entry).id = none ∧
    (⟨none, none, some "T"⟩ : Entry).link = none ∧
    process_feed "f" "u" ⟨false, [⟨none, none, some "T"⟩]⟩ [] =
      process_feed "f" "u" ⟨false, []⟩ [] :=
  ⟨rfl, rfl, C8_prop "f" "u" ⟨none, none, some "T"⟩ [] [] [] rfl rfl⟩

/-- C9: within a single `process_feed` call, the entry ids of the emitted
records (tracked by the instrumented loop, whose record output coincides
with the real output) contain no duplicates, so each identifier is notified
at most once per feed per run. -/
theorem C9_prop (n u : String) (es : List Entry) (cache : Cache) :
    ((processEntriesI n es (Cache.get cache u)).1.map Prod.snd).Nodup ∧
    (processEntriesI n es (Cache.get cache u)).1.map Prod.fst =
      (process_feed n u ⟨false, es⟩ cache).1 := by
  refine ⟨processEntriesI_nodup n es _, ?_⟩
  rw [process_feed_not_bozo]
  exact processEntriesI_fst n es _

/-- C10: when the parser signals a bozo parse failure, `process_feed`
returns the empty list and the cache completely unchanged: no seen-set
record is created or modified for the feed URL. -/
theorem C10_prop (n u : String) (es : List Entry) (cache : Cache) :
    process_feed n u ⟨true, es⟩ cache = ([], cache) := by
  simp [process_feed]

/-- C4: `send_discord_notification` performs no POST on an empty entry list;
on a non-empty list it performs exactly one POST whose `content` field is the
header line plus one formatted line per entry, newline-joined and truncated
to its first 2000 characters (so always at most 2000 characters); and when
the combined message exceeds 2000 characters the delivered content length is
exactly 2000. -/
theorem C4_prop (es : List NewEntryRecord) :
    (es = [] → send_discord_notification es = none) ∧
    (es ≠ [] →
      send_discord_notification es = some (String.mk ((build_message es).data.take 2000)) ∧
      ∀ s, send_discord_notification es = some s → s.length ≤ 2000) ∧
    (es ≠ [] → 2000 < (build_message es).length →
      ∃ s, send_discord_notification es = some s ∧ s.length = 2000) := by
  refine ⟨fun he => ?_, fun hne => ?_, fun hne hlong => ?_⟩
  · subst he
    simp [send_discord_notification]
  · have hne2 : es.isEmpty = false := by
      simpa [List.isEmpty_iff] using hne
    refine ⟨by simp [send_discord_notification, hne2], fun s hs => ?_⟩
    simp only [send_discord_notification, hne2, Bool.false_eq_true, if_false,
      Option.some.injEq] at hs
    subst hs
    simp only [String.length_mk, List.length_take]
    exact Nat.min_le_left _ _
  · have hne2 : es.isEmpty = false := by
      simpa [List.isEmpty_iff] using hne
    refine ⟨String.mk ((build_message es).data.take 2000),
      by simp [send_discord_notification, hne2], ?_⟩
    simp only [String.length_mk, List.length_take]
    have : (build_message es).data.length = (build_message es).length := rfl
    omega

set_option maxRecDepth 10000 in
/-- C4 witness: concrete instances — the empty list sends nothing, a short
entry is delivered untruncated, and an entry with a 2100-character title is
delivered with content length exactly 2000. -/
theorem C4_witness :
    send_discord_notification [] = none ∧
    send_discord_notification [⟨"F", "T", "L"⟩] =
      some "**New RSS Feed Entries Found:**\n**F**: [T](L)" ∧
    (∃ s, send_discord_notification
        [⟨"F", String.mk (List.replicate 2100 'x'), "L"⟩] = some s ∧ s.length = 2000) := by
  refine ⟨(C4_prop []).1 rfl, ?_, ?_⟩
  · have h := ((C4_prop [⟨"F", "T", "L"⟩]).2.1 (by decide)).1
    rw [h]
    rfl
  · have hbig : 2000 < (build_message [⟨"F", String.mk (List.replicate 2100 'x'), "L"⟩]).length := by
      have h1 : build_message [⟨"F", String.mk (List.replicate 2100 'x'), "L"⟩] =
          "**New RSS Feed Entries Found:**" ++ "\n" ++
            ("**" ++ "F" ++ "**: [" ++ String.mk (List.replicate 2100 'x') ++ "](" ++ "L" ++ ")") := rfl
      rw [h1]
      simp only [String.length_append, String.length_mk, List.length_replicate]
      decide
    exact (C4_prop [⟨"F", String.mk (List.replicate 2100 'x'), "L"⟩]).2.2
      (by decide) hbig

/-- C2 (amended): the CLI `list` operation produces the feed names in
ascending sorted order (a sorted permutation of the registry's names), but
the watcher's main loop visits feeds in the underlying store's own iteration
order, unsorted. -/
theorem C2_prop (db : Registry) :
    List.Sorted (fun a b => a ≤ b) (list_feeds_names db) ∧
    (list_feeds_names db).Perm (db.map Prod.fst) ∧
    watcher_feed_order db = db.map Prod.fst :=
  ⟨List.sorted_insertionSort _ _, List.perm_insertionSort _ _, rfl⟩

/-- C2 counterexample: for a registry store that yields the name "b" before
"a", the watcher's main loop visits ["b", "a"] while the CLI list order is
["a", "b"]; the visiting order is not ascending, refuting the claim that the
main loop visits feed names in ascending sorted order. -/
theorem C2_counterexample :
    watcher_feed_order [("b", "u1"), ("a", "u2")] = ["b", "a"] ∧
    list_feeds_names [("b", "u1"), ("a", "u2")] = ["a", "b"] ∧
    ¬ List.Sorted (fun a b => a ≤ b) (watcher_feed_order [("b", "u1"), ("a", "u2")]) := by
  have hba : ¬ (("b" : String) ≤ "a") := by
    rw [String.le_iff_toList_le]
    decide
  refine ⟨rfl, ?_, ?_⟩
  · simp [list_feeds_names, List.insertionSort, List.orderedInsert, hba]
  · intro hs
    have hs2 : List.Sorted (fun a b : String => a ≤ b) ["b", "a"] := hs
    exact hba ((List.sorted_cons.mp hs2).1 "a" (List.mem_cons_self _ _))

/-- C6: when the name is already present, `add_feed` fails with
`duplicateName`, the invocation exits with code 1 and the registry is
unchanged; when the name is absent, the insertion succeeds with exit code 0,
the new name maps to the given URL and every other name's record is
unchanged. -/
theorem C6_prop (db : Registry) (name url : String) :
    (Registry.hasName db name = true →
      add_feed db name url = .error .duplicateName ∧ run_add db name url = (db, 1)) ∧
    (Registry.hasName db name = false →
      run_add db name url = (Registry.set db name url, 0) ∧
      Registry.getVal (Registry.set db name url) name = some url ∧
      ∀ m, m ≠ name → Registry.getVal (Registry.set db name url) m = Registry.getVal db m) := by
  constructor
  · intro h
    exact ⟨by simp [add_feed, h], by simp [run_add, add_feed, h]⟩
  · intro h
    exact ⟨by simp [run_add, add_feed, h], Registry.getVal_set_self db name url,
      fun m hm => Registry.getVal_set_ne db name url m hm⟩

/-- C6 witness: adding the existing name "X" fails with exit code 1 and an
unchanged store; adding the fresh name "Y" appends its record. -/
theorem C6_witness :
    run_add [("X", "u1")] "X" "u2" = ([("X", "u1")], 1) ∧
    run_add [("X", "u1")] "Y" "u2" = ([("X", "u1"), ("Y", "u2")], 0) := by
  refine ⟨((C6_prop [("X", "u1")] "X" "u2").1 (by decide)).2, ?_⟩
  have h := ((C6_prop [("X", "u1")] "Y" "u2").2 (by decide)).1
  rw [h]
  rfl

/-- C5: `edit_feed` fails with `notFound` when the name is absent; fails
with `duplicateName` when a (truthy) new name differs from the name and is
already present; otherwise it succeeds and the resulting registry maps the
final name (the new name if given, else the old name) to the new URL if
given, else the old URL, and after a rename to a different name the old key
is no longer present. -/
theorem C5_prop (db : Registry) (name : String) (new_name url : Option String) :
    (Registry.hasName db name = false →
      edit_feed db name new_name url = .error .notFound) ∧
    (∀ n2, Registry.hasName db name = true → strVal new_name = some n2 → n2 ≠ name →
      Registry.hasName db n2 = true →
      edit_feed db name new_name url = .error .duplicateName) ∧
    (Registry.hasName db name = true →
      (∀ n2, strVal new_name = some n2 → n2 ≠ name → Registry.hasName db n2 = false) →
      ∃ db2, edit_feed db name new_name url = .ok db2 ∧
        Registry.getVal db2 ((strVal new_name).getD name) =
          some ((strVal url).getD ((Registry.getVal db name).getD "")) ∧
        (∀ n2, strVal new_name = some n2 → n2 ≠ name →
          Registry.hasName db2 name = false)) := by
  refine ⟨fun h => ?_, fun n2 h hs hne hdup => ?_, fun h hok => ?_⟩
  · simp [edit_feed, h]
  · simp [edit_feed, h, hs, hne, hdup]
  · cases hs : strVal new_name with
    | none =>
      refine ⟨Registry.set db name ((strVal url).getD ((Registry.getVal db name).getD "")),
        by simp [edit_feed, h, hs], ?_, fun n2 hs2 => by simp [hs] at hs2⟩
      simp only [hs, Option.getD_none]
      exact Registry.getVal_set_self db name _
    | some n2 =>
      by_cases hn : n2 = name
      · subst hn
        refine ⟨Registry.set db n2 ((strVal url).getD ((Registry.getVal db n2).getD "")),
          by simp [edit_feed, h, hs], ?_, fun n3 hs2 hne3 => ?_⟩
        · simp only [hs, Option.getD_some]
          exact Registry.getVal_set_self db n2 _
        · exact absurd (Option.some_injective _ hs2).symm hne3
      · have hfree : Registry.hasName db n2 = false := hok n2 hs hn
        refine ⟨Registry.set (Registry.erase db name) n2
            ((strVal url).getD ((Registry.getVal db name).getD "")),
          by simp [edit_feed, h, hs, hn, hfree], ?_, fun n3 _ _ => ?_⟩
        · simp only [hs, Option.getD_some]
          exact Registry.getVal_set_self (Registry.erase db name) n2 _
        · rw [Registry.hasName_set_ne _ _ _ _ (Ne.symm hn)]
          exact Registry.hasName_erase_self db name

/-- C5 witness: concrete instances of the not-found failure, the
duplicate-name failure, and a successful rename plus URL update for which
the new key maps to the new URL and the old key is gone. -/
theorem C5_witness :
    edit_feed [("a", "u1")] "z" (some "b") none = .error .notFound ∧
    edit_feed [("a", "u1"), ("b", "u2")] "a" (some "b") none = .error .duplicateName ∧
    ∃ db2, edit_feed [("a", "u1"), ("b", "u2")] "a" (some "c") (some "u9") = .ok db2 ∧
      Registry.getVal db2 "c" = some "u9" ∧ Registry.hasName db2 "a" = false := by
  refine ⟨(C5_prop [("a", "u1")] "z" (some "b") none).1 (by decide),
    (C5_prop [("a", "u1"), ("b", "u2")] "a" (some "b") none).2.1 "b" (by decide) rfl
      (by decide) (by decide), ?_⟩
  obtain ⟨db2, h1, h2, h3⟩ :=
    (C5_prop [("a", "u1"), ("b", "u2")] "a" (some "c") (some "u9")).2.2 (by decide)
      (fun n2 hs _ => by
        simp only [strVal, if_neg (by decide : ¬("c" = ""))] at hs
        rw [← Option.some_injective _ hs]
        decide)
  exact ⟨db2, h1, h2, h3 "c" rfl (by decide)⟩

/-- C7 witness: a previously seen identifier "1" is still in the seen-set
after processing a batch containing only the fresh entry id "2". -/
theorem C7_witness :
    "1" ∈ Cache.get ([("u", ["1"])] : Cache) "u" ∧
    "1" ∈ Cache.get (process_feed "F" "u" ⟨false, [⟨some "2", some "L", some "T"⟩]⟩
      [("u", ["1"])]).2 "u" :=
  ⟨by decide,
    (C7_prop "F" "u" [⟨some "2", some "L", some "T"⟩] [("u", ["1"])] "1").2 (by decide)⟩
